import Mathlib

namespace WordEmb

/-- Modelled from the spec: the dot product of two dense rational vectors
(the repository only calls `gensim`'s `most_similar`; the ranking algorithm
itself is not in the repository's source, so it is modelled from the spec's
algorithm description). Vectors of unequal length are truncated to the
shorter one. -/
def dot : List ℚ → List ℚ → ℚ
  | a :: u, b :: v => a * b + dot u v
  | _, _ => 0

/-- Modelled from the spec: componentwise vector addition (a shorter vector
is padded with zeros). -/
def vecAdd : List ℚ → List ℚ → List ℚ
  | [], v => v
  | u, [] => u
  | a :: u, b :: v => (a + b) :: vecAdd u v

/-- Modelled from the spec: componentwise vector negation. -/
def vecNeg (v : List ℚ) : List ℚ := v.map Neg.neg

/-- Modelled from the spec: the sum of a list of vectors. -/
def vecSum (l : List (List ℚ)) : List ℚ := l.foldr vecAdd []

/-- Modelled from the spec: a cosine-similarity score, kept in exact form.
A `Score` with numerator `num` and radicand `den` denotes the real number
`num / Real.sqrt den`; the pipeline always produces
`num = dot c v` and `den = (dot c c) * (dot v v)`, so that the denoted value
is exactly `dot(c,v) / (‖c‖ · ‖v‖)`. -/
structure Score where
  num : ℚ
  den : ℚ
deriving DecidableEq

/-- Modelled from the spec: the real value denoted by a `Score`,
that is, the cosine similarity `dot(c,v) / (‖c‖ · ‖v‖)`. -/
noncomputable def Score.val (s : Score) : ℝ := (s.num : ℝ) / Real.sqrt (s.den : ℝ)

/-- Modelled from the spec: a computable rational key that orders scores
exactly as their real values do (it is `val * |val|`, which squares the
magnitude while preserving the sign, eliminating the square root). -/
def Score.key (s : Score) : ℚ :=
  if s.den ≤ 0 ∨ s.num = 0 then 0
  else if 0 < s.num then s.num ^ 2 / s.den
  else -(s.num ^ 2 / s.den)

/-- Modelled from the spec: an embedding table is a mapping from word to
dense vector; it is kept as an association list so that the original
vocabulary iteration order (used to break ties) is part of the model. -/
abbrev Table : Type := List (String × List ℚ)

/-- Modelled from the spec: the vector associated to a word (the word is
looked up before use, so the default never surfaces on valid queries). -/
def vecOf (t : Table) (w : String) : List ℚ := ((List.lookup w t).getD [])

/-- Modelled from the spec: the first query word absent from the vocabulary,
if any. -/
def firstAbsent (t : Table) (ws : List String) : Option String :=
  ws.find? (fun w => (List.lookup w t).isNone)

/-- Modelled from the spec: composite vector = (sum of positive word
vectors) − (sum of negative word vectors). -/
def composite (t : Table) (p n : List String) : List ℚ :=
  vecAdd (vecSum (p.map (vecOf t))) (vecNeg (vecSum (n.map (vecOf t))))

/-- Modelled from the spec: the cosine-similarity score of a candidate
vector `v` against the composite vector `c`, in exact form:
it denotes `dot c v / (‖c‖ · ‖v‖) = dot c v / Real.sqrt (dot c c * dot v v)`. -/
def scoreOf (c v : List ℚ) : Score := ⟨dot c v, dot c c * dot v v⟩

/-- Modelled from the spec: the candidate entries, i.e. the vocabulary
entries whose word is in neither the positive nor the negative query set,
in original vocabulary iteration order. -/
def candidates (t : Table) (p n : List String) : Table :=
  t.filter (fun e => !(p.contains e.1 || n.contains e.1))

/-- Modelled from the spec: the descending-score ordering used to rank
candidates (`a` comes no later than `b` when `a`'s score is at least `b`'s). -/
def byDesc (a b : String × Score) : Prop := b.2.key ≤ a.2.key

instance : DecidableRel byDesc := fun a b => inferInstanceAs (Decidable (_ ≤ _))

instance : IsTotal (String × Score) byDesc :=
  ⟨fun a b => le_total b.2.key a.2.key⟩

instance : IsTrans (String × Score) byDesc :=
  ⟨fun _ _ _ h h' => le_trans h' h⟩

/-- Modelled from the spec: every candidate scored against the composite
vector, in original vocabulary iteration order. -/
def scoredCandidates (t : Table) (p n : List String) : List (String × Score) :=
  (candidates t p n).map (fun e => (e.1, scoreOf (composite t p n) e.2))

/-- Modelled from the spec: all scored candidates ranked by descending
score; the sort is the stable insertion sort, so ties keep the original
vocabulary iteration order. -/
def rank (t : Table) (p n : List String) : List (String × Score) :=
  List.insertionSort byDesc (scoredCandidates t p n)

/-- Modelled from the spec: the two error outcomes of a query. -/
inductive QueryError where
  | unknownWord : String → QueryError
  | invalidArgument : QueryError
deriving DecidableEq

/-- Modelled from the spec: the nearest-neighbor query
`query(table, positive, negative, topN)`. It fails with `UnknownWordError`
if any query word is absent from the vocabulary, fails with
`InvalidArgumentError` if `positive` is empty or `topN ≤ 0`, and otherwise
returns the `topN` highest-scoring non-query words with their scores. -/
def query (t : Table) (p n : List String) (k : ℤ) :
    Except QueryError (List (String × Score)) :=
  match firstAbsent t (p ++ n) with
  | some w => .error (.unknownWord w)
  | none =>
    if p = [] ∨ k ≤ 0 then .error .invalidArgument
    else .ok ((rank t p n).take k.toNat)

/-- Modelled from the spec: the query operation run against an explicitly
passed table state, returning the result together with the table it leaves
behind (the operation is a pure read-only computation over the table). -/
def queryRun (t : Table) (p n : List String) (k : ℤ) :
    Except QueryError (List (String × Score)) × Table :=
  (query t p n k, t)

/-- Modelled from the spec: a table is well-formed when its words are
unique keys and all its vectors share the fixed dimensionality `D`. -/
def WFTable (t : Table) (D : ℕ) : Prop :=
  (t.map Prod.fst).Nodup ∧ ∀ e ∈ t, (e.2 : List ℚ).length = D

/-- Modelled from the spec: a valid query has a non-empty positive set, a
positive `topN`, and every query word present in the vocabulary. -/
def ValidQuery (t : Table) (p n : List String) (k : ℤ) : Prop :=
  p ≠ [] ∧ 0 < k ∧ ∀ w ∈ p ++ n, (List.lookup w t).isSome

/-- The concrete table of the spec's scenario:
`{"cat": [1,0], "dog": [0.9,0.1], "car": [0,1]}`. -/
def scenarioTable : Table := [("cat", [1, 0]), ("dog", [9/10, 1/10]), ("car", [0, 1])]

/-- A concrete table where "king" is closest to itself, for the exclusion
scenario. -/
def royalTable : Table := [("king", [1, 0]), ("queen", [1, 1])]

theorem dot_self_nonneg (v : List ℚ) : 0 ≤ dot v v := by
  induction v with
  | nil => simp [dot]
  | cons a v ih => simp only [dot]; nlinarith [mul_self_nonneg a]

theorem dot_sq_le (u v : List ℚ) : dot u v ^ 2 ≤ dot u u * dot v v := by
  induction u generalizing v with
  | nil => simp [dot]
  | cons a u ih =>
    cases v with
    | nil => simp [dot]
    | cons b v =>
      have h := ih v
      have hu := dot_self_nonneg u
      have hv := dot_self_nonneg v
      simp only [dot]
      rcases eq_or_lt_of_le hv with hB | hB
      · have hS : dot u v = 0 := by
          have h0 : dot u v ^ 2 ≤ 0 := by rw [← hB] at h; simpa using h
          have := sq_nonneg (dot u v)
          nlinarith
        rw [hS, ← hB]
        nlinarith [mul_nonneg hu (mul_self_nonneg b)]
      · nlinarith [sq_nonneg (a * dot v v - b * dot u v),
          mul_nonneg (mul_self_nonneg b) (sub_nonneg.mpr h),
          mul_pos hB hB]

theorem vecAdd_nil (u : List ℚ) : vecAdd u [] = u := by
  cases u <;> rfl

theorem nil_vecAdd (v : List ℚ) : vecAdd [] v = v := by
  cases v <;> rfl

theorem vecAdd_comm (u v : List ℚ) : vecAdd u v = vecAdd v u := by
  induction u generalizing v with
  | nil => rw [nil_vecAdd, vecAdd_nil]
  | cons a u ih =>
    cases v with
    | nil => rfl
    | cons b v => simp only [vecAdd]; rw [add_comm, ih]

theorem vecAdd_assoc (u v w : List ℚ) :
    vecAdd (vecAdd u v) w = vecAdd u (vecAdd v w) := by
  induction u generalizing v w with
  | nil => rw [nil_vecAdd, nil_vecAdd]
  | cons a u ih =>
    cases v with
    | nil => rw [vecAdd_nil, nil_vecAdd]
    | cons b v =>
      cases w with
      | nil => rw [vecAdd_nil, vecAdd_nil]
      | cons c w => simp only [vecAdd]; rw [add_assoc, ih]

instance : LeftCommutative vecAdd :=
  ⟨fun a b c => by rw [← vecAdd_assoc, vecAdd_comm a b, vecAdd_assoc]⟩

theorem signedSq_lt {x y : ℝ} (h : x < y) : x * |x| < y * |y| := by
  rcases abs_cases x with ⟨hx, hx'⟩ | ⟨hx, hx'⟩ <;>
    rcases abs_cases y with ⟨hy, hy'⟩ | ⟨hy, hy'⟩ <;>
      rw [hx, hy] <;> nlinarith

theorem signedSq_le_iff {x y : ℝ} : x * |x| ≤ y * |y| ↔ x ≤ y := by
  constructor
  · intro h
    by_contra h'
    exact absurd h (not_le.mpr (signedSq_lt (not_le.mp h')))
  · intro h
    rcases lt_or_eq_of_le h with h' | h'
    · exact (signedSq_lt h').le
    · rw [h']

theorem Score.val_mul_abs (s : Score) (hd : 0 ≤ s.den) :
    ((s.key : ℝ)) = s.val * |s.val| := by
  rcases eq_or_lt_of_le hd with h0 | hpos
  · have hk : s.key = 0 := by rw [Score.key, if_pos (Or.inl h0.symm.le)]
    have hv : s.val = 0 := by rw [Score.val, ← h0]; simp
    rw [hk, hv]; simp
  · have hdR : (0:ℝ) < (s.den : ℝ) := by exact_mod_cast hpos
    have hrhs : s.val * |s.val| = ((s.num : ℝ) * |(s.num : ℝ)|) / (s.den : ℝ) := by
      rw [Score.val, abs_div, abs_of_nonneg (Real.sqrt_nonneg _), div_mul_div_comm,
        Real.mul_self_sqrt hdR.le]
    rw [hrhs]
    rcases lt_trichotomy s.num 0 with hn | hn | hn
    · rw [Score.key, if_neg (by push_neg; exact ⟨hpos, hn.ne⟩),
        if_neg (not_lt.mpr hn.le)]
      have hnR : (s.num : ℝ) < 0 := by exact_mod_cast hn
      push_cast
      rw [abs_of_neg hnR]
      ring
    · rw [Score.key, if_pos (Or.inr hn), hn]
      simp
    · rw [Score.key, if_neg (by push_neg; exact ⟨hpos, hn.ne'⟩), if_pos hn]
      have hnR : (0:ℝ) < (s.num : ℝ) := by exact_mod_cast hn
      push_cast
      rw [abs_of_pos hnR]
      ring

theorem Score.key_le_iff {s t : Score} (hs : 0 ≤ s.den) (ht : 0 ≤ t.den) :
    s.key ≤ t.key ↔ s.val ≤ t.val := by
  constructor
  · intro h
    have h' : ((s.key : ℝ)) ≤ ((t.key : ℝ)) := by exact_mod_cast h
    rw [Score.val_mul_abs s hs, Score.val_mul_abs t ht] at h'
    exact signedSq_le_iff.mp h'
  · intro h
    have h' : ((s.key : ℝ)) ≤ ((t.key : ℝ)) := by
      rw [Score.val_mul_abs s hs, Score.val_mul_abs t ht]
      exact signedSq_le_iff.mpr h
    exact_mod_cast h'

theorem Score.key_eq_iff {s t : Score} (hs : 0 ≤ s.den) (ht : 0 ≤ t.den) :
    s.key = t.key ↔ s.val = t.val := by
  rw [le_antisymm_iff, le_antisymm_iff, Score.key_le_iff hs ht, Score.key_le_iff ht hs]

theorem scoreOf_den_nonneg (c v : List ℚ) : 0 ≤ (scoreOf c v).den :=
  mul_nonneg (dot_self_nonneg c) (dot_self_nonneg v)

theorem scoreOf_val_abs_le (c v : List ℚ) : |(scoreOf c v).val| ≤ 1 := by
  have hcs : (dot c v) ^ 2 ≤ dot c c * dot v v := dot_sq_le c v
  rcases eq_or_lt_of_le (scoreOf_den_nonneg c v) with h0 | hpos
  · simp only [scoreOf] at h0
    have hn : dot c v = 0 := by
      have : (dot c v) ^ 2 ≤ 0 := by rw [← h0] at hcs; exact hcs
      nlinarith [sq_nonneg (dot c v)]
    rw [Score.val]
    simp only [scoreOf] at hn ⊢
    rw [hn]
    simp
  · have hdR : (0:ℝ) < ((scoreOf c v).den : ℝ) := by exact_mod_cast hpos
    have hsq : (0:ℝ) < Real.sqrt ((scoreOf c v).den : ℝ) := Real.sqrt_pos.mpr hdR
    rw [Score.val, abs_div, abs_of_nonneg (Real.sqrt_nonneg _), div_le_one hsq]
    have hnum : |((scoreOf c v).num : ℝ)| = Real.sqrt (((scoreOf c v).num : ℝ) ^ 2) :=
      (Real.sqrt_sq_eq_abs _).symm
    rw [hnum]
    apply Real.sqrt_le_sqrt
    have : ((dot c v : ℚ) : ℝ) ^ 2 ≤ ((dot c c * dot v v : ℚ) : ℝ) := by
      exact_mod_cast hcs
    simpa [scoreOf] using this

theorem scoreOf_val_mem (c v : List ℚ) :
    -1 ≤ (scoreOf c v).val ∧ (scoreOf c v).val ≤ 1 :=
  abs_le.mp (scoreOf_val_abs_le c v)

theorem query_ok_elim {t : Table} {p n : List String} {k : ℤ}
    {res : List (String × Score)} (h : query t p n k = .ok res) :
    firstAbsent t (p ++ n) = none ∧ p ≠ [] ∧ 0 < k ∧
      res = (rank t p n).take k.toNat := by
  unfold query at h
  cases hfa : firstAbsent t (p ++ n) with
  | some w => rw [hfa] at h; exact absurd h (by simp)
  | none =>
    rw [hfa] at h
    by_cases hc : p = [] ∨ k ≤ 0
    · rw [if_pos hc] at h; exact absurd h (by simp)
    · rw [if_neg hc] at h
      push_neg at hc
      exact ⟨rfl, hc.1, hc.2, by simpa using h.symm⟩

theorem query_eq_ok {t : Table} {p n : List String} {k : ℤ}
    (hab : firstAbsent t (p ++ n) = none) (hp : p ≠ []) (hk : 0 < k) :
    query t p n k = .ok ((rank t p n).take k.toNat) := by
  unfold query
  rw [hab, if_neg (by push_neg; exact ⟨hp, hk⟩)]

theorem firstAbsent_eq_none {t : Table} {ws : List String}
    (hall : ∀ w ∈ ws, (List.lookup w t).isSome) : firstAbsent t ws = none := by
  rw [firstAbsent, List.find?_eq_none]
  intro w hw
  have h := hall w hw
  cases hl : List.lookup w t with
  | none => rw [hl] at h; simp at h
  | some v => simp [hl]

theorem ValidQuery.firstAbsent_none {t : Table} {p n : List String} {k : ℤ}
    (hv : ValidQuery t p n k) : firstAbsent t (p ++ n) = none :=
  firstAbsent_eq_none hv.2.2

theorem ValidQuery.query_eq {t : Table} {p n : List String} {k : ℤ}
    (hv : ValidQuery t p n k) :
    query t p n k = .ok ((rank t p n).take k.toNat) :=
  query_eq_ok hv.firstAbsent_none hv.1 hv.2.1

theorem rank_sorted (t : Table) (p n : List String) :
    (rank t p n).Sorted byDesc :=
  List.sorted_insertionSort byDesc _

theorem rank_perm (t : Table) (p n : List String) :
    List.Perm (rank t p n) (scoredCandidates t p n) :=
  List.perm_insertionSort byDesc _

theorem mem_scoredCandidates {t : Table} {p n : List String}
    {x : String × Score} (hx : x ∈ scoredCandidates t p n) :
    ∃ e ∈ t, (e.1 ∉ p ∧ e.1 ∉ n) ∧ x = (e.1, scoreOf (composite t p n) e.2) := by
  rw [scoredCandidates, List.mem_map] at hx
  obtain ⟨e, he, hxe⟩ := hx
  rw [candidates, List.mem_filter] at he
  refine ⟨e, he.1, ?_, hxe.symm⟩
  have h2 := he.2
  simp only [Bool.not_eq_true', Bool.or_eq_false_iff] at h2
  constructor
  · simpa using h2.1
  · simpa using h2.2

theorem mem_res_scored {t : Table} {p n : List String} {k : ℤ}
    {res : List (String × Score)} {x : String × Score}
    (h : query t p n k = .ok res) (hx : x ∈ res) :
    x ∈ scoredCandidates t p n := by
  obtain ⟨-, -, -, hres⟩ := query_ok_elim h
  rw [hres] at hx
  exact (rank_perm t p n).mem_iff.mp (List.mem_of_mem_take hx)

theorem res_den_nonneg {t : Table} {p n : List String} {k : ℤ}
    {res : List (String × Score)} {x : String × Score}
    (h : query t p n k = .ok res) (hx : x ∈ res) : 0 ≤ x.2.den := by
  obtain ⟨e, -, -, hxe⟩ := mem_scoredCandidates (mem_res_scored h hx)
  rw [hxe]
  exact scoreOf_den_nonneg _ _

theorem filter_orderedInsert_key (x : String × Score)
    (l : List (String × Score)) (q : ℚ) :
    (List.orderedInsert byDesc x l).filter (fun y => decide (y.2.key = q))
      = if x.2.key = q
        then x :: l.filter (fun y => decide (y.2.key = q))
        else l.filter (fun y => decide (y.2.key = q)) := by
  induction l with
  | nil => by_cases h : x.2.key = q <;> simp [List.orderedInsert, h]
  | cons b l ih =>
    rw [List.orderedInsert]
    by_cases hr : byDesc x b
    · rw [if_pos hr]
      by_cases h : x.2.key = q <;> simp [List.filter_cons, h]
    · rw [if_neg hr]
      by_cases h : x.2.key = q
      · have hb : ¬ (b.2.key = q) := by
          intro hbq
          exact hr (le_of_eq (hbq.trans h.symm))
        rw [if_pos h]
        simp [List.filter_cons, hb, ih, h]
      · rw [if_neg h]
        by_cases hb : b.2.key = q <;> simp [List.filter_cons, hb, ih, h]

theorem filter_insertionSort_key (l : List (String × Score)) (q : ℚ) :
    (List.insertionSort byDesc l).filter (fun y => decide (y.2.key = q))
      = l.filter (fun y => decide (y.2.key = q)) := by
  induction l with
  | nil => rfl
  | cons x l ih =>
    rw [List.insertionSort, filter_orderedInsert_key]
    by_cases h : x.2.key = q
    · rw [if_pos h, ih, List.filter_cons, if_pos (by simpa using h)]
    · rw [if_neg h, ih, List.filter_cons, if_neg (by simpa using h)]

theorem length_filter_add (l : List α) (p : α → Bool) :
    (l.filter p).length + (l.filter (fun a => !(p a))).length = l.length := by
  induction l with
  | nil => rfl
  | cons a l ih => by_cases h : p a <;> simp [List.filter_cons, h] <;> omega

theorem mem_keys_of_lookup {t : Table} {w : String}
    (h : (List.lookup w t).isSome) : w ∈ t.map Prod.fst := by
  rw [List.lookup_isSome_iff] at h
  obtain ⟨e, he, hb⟩ := h
  exact List.mem_map.mpr ⟨e, he, (eq_of_beq hb).symm⟩

theorem length_filter_fst (t : Table) (q : String → Bool) :
    (t.filter (fun e => q e.1)).length = ((t.map Prod.fst).filter q).length := by
  induction t with
  | nil => rfl
  | cons e t ih => by_cases h : q e.1 <;> simp [List.filter_cons, h, ih]

theorem queryWords_perm {t : Table} {p n : List String} {k : ℤ} {D : ℕ}
    (hwf : WFTable t D) (hv : ValidQuery t p n k) :
    List.Perm ((t.map Prod.fst).filter (fun w => p.contains w || n.contains w))
      ((p ++ n).dedup) := by
  have hA : ((t.map Prod.fst).filter (fun w => p.contains w || n.contains w)).Nodup :=
    hwf.1.filter _
  rw [List.perm_ext_iff_of_nodup hA (List.nodup_dedup _)]
  intro w
  rw [List.mem_filter, List.mem_dedup, List.mem_append]
  constructor
  · rintro ⟨-, hw⟩
    simpa using hw
  · intro hw
    refine ⟨?_, by simpa using hw⟩
    exact mem_keys_of_lookup (hv.2.2 w (List.mem_append.mpr hw))

theorem candidates_length {t : Table} {p n : List String} {k : ℤ} {D : ℕ}
    (hwf : WFTable t D) (hv : ValidQuery t p n k) :
    (candidates t p n).length = t.length - ((p ++ n).dedup).length := by
  have step1 : (candidates t p n).length
      = ((t.map Prod.fst).filter (fun w => !(p.contains w || n.contains w))).length :=
    length_filter_fst t (fun w => !(p.contains w || n.contains w))
  have step3 := (queryWords_perm hwf hv).length_eq
  have step2 := length_filter_add (t.map Prod.fst)
    (fun w => p.contains w || n.contains w)
  have hlen : (t.map Prod.fst).length = t.length := List.length_map t Prod.fst
  omega

theorem dedup_le_length {t : Table} {p n : List String} {k : ℤ} {D : ℕ}
    (hwf : WFTable t D) (hv : ValidQuery t p n k) :
    ((p ++ n).dedup).length ≤ t.length := by
  have h1 := (queryWords_perm hwf hv).length_eq
  have h2 : (((t.map Prod.fst)).filter (fun w => p.contains w || n.contains w)).length
      ≤ (t.map Prod.fst).length := List.length_filter_le _ _
  have hlen : (t.map Prod.fst).length = t.length := List.length_map t Prod.fst
  omega

theorem scenario_eval :
    query scenarioTable ["cat"] [] 1 = .ok [("dog", ⟨9/10, 41/50⟩)] := by
  norm_num [query, firstAbsent, List.find?, List.lookup, rank, scoredCandidates,
    candidates, composite, vecSum, vecAdd, vecNeg, vecOf, scoreOf, dot,
    List.insertionSort, List.orderedInsert, byDesc, Score.key, scenarioTable]

theorem scenario_valid : ValidQuery scenarioTable ["cat"] [] 1 := by
  refine ⟨by simp, by norm_num, ?_⟩
  intro w hw
  simp only [List.append_nil, List.mem_singleton] at hw
  subst hw
  simp [List.lookup, scenarioTable]

theorem scenario_wf : WFTable scenarioTable 2 := by
  constructor
  · simp [scenarioTable]
  · intro e he
    simp only [scenarioTable, List.mem_cons, List.not_mem_nil, or_false] at he
    rcases he with h | h | h <;> subst h <;> rfl

theorem royal_eval :
    query royalTable ["king"] [] 5 = .ok [("queen", ⟨1, 2⟩)] := by
  norm_num [query, firstAbsent, List.find?, List.lookup, rank, scoredCandidates,
    candidates, composite, vecSum, vecAdd, vecNeg, vecOf, scoreOf, dot,
    List.insertionSort, List.orderedInsert, byDesc, Score.key, royalTable]

theorem scenario_score_val :
    |Score.val ⟨9/10, 41/50⟩ - 994/1000| < 1/1000 := by
  have h2 : (905:ℝ)/1000 < Real.sqrt (41/50) :=
    (Real.lt_sqrt (by norm_num)).mpr (by norm_num)
  have h1 : Real.sqrt (41/50) < (906:ℝ)/1000 :=
    (Real.sqrt_lt' (by norm_num)).mpr (by norm_num)
  have hpos : (0:ℝ) < Real.sqrt (41/50) := lt_trans (by norm_num) h2
  have hv : Score.val ⟨9/10, 41/50⟩ = (9:ℝ)/10 / Real.sqrt (41/50) := by
    rw [Score.val]
    norm_num
  rw [hv]
  have hlow : (993:ℝ)/1000 < (9:ℝ)/10 / Real.sqrt (41/50) := by
    rw [lt_div_iff₀ hpos]
    nlinarith
  have hhigh : (9:ℝ)/10 / Real.sqrt (41/50) < (995:ℝ)/1000 := by
    rw [div_lt_iff₀ hpos]
    nlinarith
  rw [abs_lt]
  constructor <;> linarith

/-- C1: for every valid query, the query operation computes the composite
vector as (sum of positive word vectors) minus (sum of negative word
vectors), scores every vocabulary word not in positive ∪ negative by cosine
similarity against it, and returns the `topN` highest-scoring words; in
particular, on the table {"cat": [1,0], "dog": [0.9,0.1], "car": [0,1]}
with positive=["cat"], negative=[], topN=1 it returns [("dog", ~0.994)]. -/
theorem C1_algorithm_and_scenario :
    (∀ (t : Table) (p n : List String) (k : ℤ), ValidQuery t p n k →
        query t p n k = .ok ((List.insertionSort byDesc
          ((t.filter (fun e => !(p.contains e.1 || n.contains e.1))).map
            (fun e => (e.1, scoreOf
              (vecAdd (vecSum (p.map (vecOf t))) (vecNeg (vecSum (n.map (vecOf t)))))
              e.2)))).take k.toNat))
    ∧ (∃ s : Score,
        query scenarioTable ["cat"] [] 1 = .ok [("dog", s)]
        ∧ |s.val - 994/1000| < 1/1000) := by
  constructor
  · intro t p n k hv
    rw [hv.query_eq]
    rfl
  · exact ⟨⟨9/10, 41/50⟩, scenario_eval, scenario_score_val⟩

/-- C1 witness: the general clause of `C1_algorithm_and_scenario`
instantiated at the concrete scenario query, with its validity hypothesis
discharged. -/
theorem C1_witness :
    query scenarioTable ["cat"] [] 1 = .ok ((List.insertionSort byDesc
      ((scenarioTable.filter
          (fun e => !((["cat"] : List String).contains e.1
            || ([] : List String).contains e.1))).map
        (fun e => (e.1, scoreOf
          (vecAdd (vecSum ((["cat"] : List String).map (vecOf scenarioTable)))
            (vecNeg (vecSum (([] : List String).map (vecOf scenarioTable)))))
          e.2)))).take (1 : ℤ).toNat) :=
  C1_algorithm_and_scenario.1 scenarioTable ["cat"] [] 1 scenario_valid

/-- C5: the query operation fails with `UnknownWordError` if and only if
some word of the positive or negative set is absent from the table's
vocabulary. -/
theorem C5_unknown_word_iff (t : Table) (p n : List String) (k : ℤ) :
    (∃ w, query t p n k = .error (.unknownWord w)) ↔
      (∃ w ∈ p ++ n, List.lookup w t = none) := by
  unfold query
  cases hfa : firstAbsent t (p ++ n) with
  | some w =>
    have hmem : w ∈ p ++ n := List.mem_of_find?_eq_some hfa
    have hpw := List.find?_some hfa
    constructor
    · intro _
      exact ⟨w, hmem, Option.isNone_iff_eq_none.mp hpw⟩
    · intro _
      exact ⟨w, rfl⟩
  | none =>
    rw [firstAbsent, List.find?_eq_none] at hfa
    constructor
    · rintro ⟨w, hw⟩
      by_cases hc : p = [] ∨ k ≤ 0
      · rw [if_pos hc] at hw
        exact absurd hw (by simp)
      · rw [if_neg hc] at hw
        exact absurd hw (by simp)
    · rintro ⟨w, hwm, hwn⟩
      have h := hfa w hwm
      rw [hwn] at h
      simp at h

/-- C6 counterexample: with an empty positive set but a negative word
absent from the vocabulary, the query fails with `UnknownWordError`, not
`InvalidArgumentError`, so "raises InvalidArgumentError whenever the
positive set is empty" is false as stated. -/
theorem C6_counterexample :
    query scenarioTable [] ["lion"] 5 = .error (.unknownWord "lion")
    ∧ query scenarioTable [] ["lion"] 5 ≠ .error .invalidArgument := by
  have h : query scenarioTable [] ["lion"] 5 = .error (.unknownWord "lion") := by
    simp +decide [query, firstAbsent, List.find?, List.lookup, scenarioTable]
  exact ⟨h, by rw [h]; simp⟩

/-- C6 (amended): the query operation raises `InvalidArgumentError`
whenever the positive set is empty or `topN ≤ 0`, provided every query
word is present in the vocabulary (an absent query word takes precedence
and raises `UnknownWordError` instead); in particular positive=[],
negative=[], topN=5 raises `InvalidArgumentError`. -/
theorem C6_invalid_argument (t : Table) (p n : List String) (k : ℤ)
    (hall : ∀ w ∈ p ++ n, (List.lookup w t).isSome) (hbad : p = [] ∨ k ≤ 0) :
    query t p n k = .error .invalidArgument := by
  unfold query
  rw [firstAbsent_eq_none hall, if_pos hbad]

/-- C6 witness: the spec's scenario positive=[], topN=5 (with no negative
words) raises `InvalidArgumentError`. -/
theorem C6_witness : query scenarioTable [] [] 5 = .error .invalidArgument :=
  C6_invalid_argument scenarioTable [] [] 5 (by simp) (Or.inl rfl)

/-- C8: the query operation is deterministic: two calls with identical
table, positive list, negative list, and topN yield identical outputs. -/
theorem C8_deterministic (t t' : Table) (p p' n n' : List String) (k k' : ℤ)
    (h1 : t = t') (h2 : p = p') (h3 : n = n') (h4 : k = k') :
    query t p n k = query t' p' n' k' := by
  subst h1; subst h2; subst h3; subst h4; rfl

/-- C8 witness: determinism instantiated at the concrete scenario query. -/
theorem C8_witness :
    query scenarioTable ["cat"] [] 1 = query scenarioTable ["cat"] [] 1 :=
  C8_deterministic scenarioTable scenarioTable ["cat"] ["cat"] [] [] 1 1
    rfl rfl rfl rfl

/-- C9: the query operation has no side effects: run against an explicitly
passed table state, it always leaves the table (every key and vector)
unchanged, whether it returns a result or an error. -/
theorem C9_no_side_effects (t : Table) (p n : List String) (k : ℤ) :
    (queryRun t p n k).2 = t := rfl

theorem res_val_sorted {t : Table} {p n : List String} {k : ℤ}
    {res : List (String × Score)} (h : query t p n k = .ok res) :
    res.Pairwise (fun x y => y.2.val ≤ x.2.val) := by
  obtain ⟨-, -, -, hres⟩ := query_ok_elim h
  have htake : res.Pairwise byDesc := by
    rw [hres]
    exact (rank_sorted t p n).sublist (List.take_sublist _ _)
  exact htake.imp_of_mem
    (fun {a b} ha hb hr =>
      (Score.key_le_iff (res_den_nonneg h hb) (res_den_nonneg h ha)).mp hr)

/-- C2: for every well-formed table and valid query, the length of the
result list equals min(topN, vocabulary size − |positive ∪ negative|). -/
theorem C2_result_length (t : Table) (p n : List String) (k : ℤ)
    (res : List (String × Score)) (D : ℕ)
    (hwf : WFTable t D) (hv : ValidQuery t p n k)
    (h : query t p n k = .ok res) :
    (res.length : ℤ) = min k ((t.length : ℤ) - (((p ++ n).dedup).length : ℤ)) := by
  obtain ⟨-, -, hk, hres⟩ := query_ok_elim h
  have hlen : res.length = min k.toNat (rank t p n).length := by
    rw [hres, List.length_take]
  have hrank : (rank t p n).length = (scoredCandidates t p n).length :=
    (rank_perm t p n).length_eq
  have hsc : (scoredCandidates t p n).length = (candidates t p n).length :=
    List.length_map _ _
  have hd := dedup_le_length hwf hv
  rw [hlen, hrank, hsc, candidates_length hwf hv, Nat.cast_min,
    Int.toNat_of_nonneg hk.le, Nat.cast_sub hd]

/-- C2 witness: the length law instantiated at the concrete scenario: the
result has length 1 = min(1, 3 − 1). -/
theorem C2_witness :
    ([("dog", (⟨9/10, 41/50⟩ : Score))].length : ℤ)
      = min 1 ((scenarioTable.length : ℤ)
        - (((["cat"] ++ ([] : List String)).dedup).length : ℤ)) :=
  C2_result_length scenarioTable ["cat"] [] 1 _ 2 scenario_wf scenario_valid
    scenario_eval

/-- C3: for every query that returns a result, every score lies in the
closed interval [-1, 1] and the scores are non-increasing from the first
element to the last. -/
theorem C3_scores_bounded_sorted (t : Table) (p n : List String) (k : ℤ)
    (res : List (String × Score)) (h : query t p n k = .ok res) :
    (∀ x ∈ res, -1 ≤ x.2.val ∧ x.2.val ≤ 1)
    ∧ res.Pairwise (fun x y => y.2.val ≤ x.2.val) := by
  constructor
  · intro x hx
    obtain ⟨e, -, -, hxe⟩ := mem_scoredCandidates (mem_res_scored h hx)
    rw [hxe]
    exact scoreOf_val_mem _ _
  · exact res_val_sorted h

/-- C3 witness: the score-bounds-and-order law instantiated at the
concrete scenario result. -/
theorem C3_witness :
    (∀ x ∈ [("dog", (⟨9/10, 41/50⟩ : Score))], -1 ≤ x.2.val ∧ x.2.val ≤ 1)
    ∧ [("dog", (⟨9/10, 41/50⟩ : Score))].Pairwise
        (fun x y => y.2.val ≤ x.2.val) :=
  C3_scores_bounded_sorted scenarioTable ["cat"] [] 1 _ scenario_eval

/-- C4: no word of the positive or negative set of a query ever appears in
the returned result list. -/
theorem C4_excludes_query_words (t : Table) (p n : List String) (k : ℤ)
    (res : List (String × Score)) (w : String)
    (h : query t p n k = .ok res) (hw : w ∈ p ∨ w ∈ n) :
    ∀ s : Score, (w, s) ∉ res := by
  intro s hmem
  obtain ⟨e, -, hne, hxe⟩ := mem_scoredCandidates (mem_res_scored h hmem)
  have hfst : w = e.1 := congrArg Prod.fst hxe
  rcases hw with hwp | hwn
  · exact hne.1 (hfst ▸ hwp)
  · exact hne.2 (hfst ▸ hwn)

/-- C4 witness: on a table where "king" is closest to itself, the query
positive=["king"] never returns "king". -/
theorem C4_witness :
    ("king", (⟨1, 1⟩ : Score)) ∉ [("queen", (⟨1, 2⟩ : Score))] :=
  C4_excludes_query_words royalTable ["king"] [] 5 _ "king" royal_eval
    (Or.inl (List.mem_singleton.mpr rfl)) ⟨1, 1⟩

/-- C7: the result is ordered by descending score (a total order on the
real score values); candidates whose scores are equal (equivalently, whose
order keys are equal) appear in the result as a prefix of their occurrence
sequence in the original vocabulary iteration order, i.e. the selection
behaves as a stable sort. -/
theorem C7_stable_descending (t : Table) (p n : List String) (k : ℤ)
    (res : List (String × Score)) (h : query t p n k = .ok res) :
    res.Pairwise (fun x y => y.2.val ≤ x.2.val)
    ∧ (∀ q : ℚ, ∃ rest, res.filter (fun y => decide (y.2.key = q)) ++ rest
        = (scoredCandidates t p n).filter (fun y => decide (y.2.key = q)))
    ∧ (∀ x ∈ res, ∀ y ∈ res, (x.2.val = y.2.val ↔ x.2.key = y.2.key)) := by
  obtain ⟨-, -, -, hres⟩ := query_ok_elim h
  refine ⟨res_val_sorted h, ?_, ?_⟩
  · intro q
    refine ⟨((rank t p n).drop k.toNat).filter (fun y => decide (y.2.key = q)), ?_⟩
    rw [hres, ← List.filter_append, List.take_append_drop]
    exact filter_insertionSort_key (scoredCandidates t p n) q
  · intro x hx y hy
    exact (Score.key_eq_iff (res_den_nonneg h hx) (res_den_nonneg h hy)).symm

/-- C7 witness: the stability law instantiated at the concrete scenario
result. -/
theorem C7_witness :
    [("dog", (⟨9/10, 41/50⟩ : Score))].Pairwise (fun x y => y.2.val ≤ x.2.val)
    ∧ (∀ q : ℚ, ∃ rest,
        [("dog", (⟨9/10, 41/50⟩ : Score))].filter (fun y => decide (y.2.key = q))
          ++ rest
        = (scoredCandidates scenarioTable ["cat"] []).filter
            (fun y => decide (y.2.key = q)))
    ∧ (∀ x ∈ [("dog", (⟨9/10, 41/50⟩ : Score))],
        ∀ y ∈ [("dog", (⟨9/10, 41/50⟩ : Score))],
        (x.2.val = y.2.val ↔ x.2.key = y.2.key)) :=
  C7_stable_descending scenarioTable ["cat"] [] 1 _ scenario_eval

/-- C10: for every valid query, the result is invariant under permutation
of the positive word list and under permutation of the negative word list,
since the composite vector is built by commutative summation and candidate
exclusion depends only on membership. -/
theorem C10_perm_invariant (t : Table) (p p' n n' : List String) (k : ℤ)
    (hp : List.Perm p p') (hn : List.Perm n n') (hv : ValidQuery t p n k) :
    query t p' n' k = query t p n k := by
  have hv' : ValidQuery t p' n' k := by
    refine ⟨?_, hv.2.1, ?_⟩
    · intro h0
      rw [h0] at hp
      exact hv.1 hp.eq_nil
    · intro w hw
      apply hv.2.2
      rw [List.mem_append] at hw ⊢
      exact hw.imp hp.mem_iff.mpr hn.mem_iff.mpr
  have hcomp : composite t p' n' = composite t p n := by
    rw [composite, composite]
    have hsp : vecSum (p'.map (vecOf t)) = vecSum (p.map (vecOf t)) :=
      ((hp.map (vecOf t)).foldr_eq []).symm
    have hsn : vecSum (n'.map (vecOf t)) = vecSum (n.map (vecOf t)) :=
      ((hn.map (vecOf t)).foldr_eq []).symm
    rw [hsp, hsn]
  have hcand : candidates t p' n' = candidates t p n := by
    rw [candidates, candidates]
    apply List.filter_congr
    intro e _
    have h1 : p'.contains e.1 = p.contains e.1 := by
      simp only [List.contains, List.elem_eq_mem]
      rw [decide_eq_decide]
      exact hp.symm.mem_iff
    have h2 : n'.contains e.1 = n.contains e.1 := by
      simp only [List.contains, List.elem_eq_mem]
      rw [decide_eq_decide]
      exact hn.symm.mem_iff
    rw [h1, h2]
  have hsc : scoredCandidates t p' n' = scoredCandidates t p n := by
    rw [scoredCandidates, scoredCandidates, hcand, hcomp]
  rw [hv.query_eq, hv'.query_eq, rank, rank, hsc]

/-- C10 witness: permutation invariance instantiated on the scenario table
with the positive list ["dog","cat"] against its reordering ["cat","dog"]. -/
theorem C10_witness :
    query scenarioTable ["cat", "dog"] [] 1
      = query scenarioTable ["dog", "cat"] [] 1 :=
  C10_perm_invariant scenarioTable ["dog", "cat"] ["cat", "dog"] [] [] 1
    (List.Perm.swap "cat" "dog" []) (List.Perm.refl [])
    ⟨by simp, by norm_num, by
      intro w hw
      simp only [List.append_nil, List.mem_cons, List.not_mem_nil, or_false] at hw
      rcases hw with h | h <;> subst h <;> simp [List.lookup, scenarioTable]⟩

end WordEmb
